import Mathlib

/-!
Verification of the lightshow image generator (src/main.c).

The program prints a P3 header and then, for j = 0..255 (rows) and
i = 0..255 (columns), computes

    double r = (double) i / (image_width - 1);
    double g = (double) j / (image_height - 1);
    double b = 0;
    int ir = 255.999 * r;
    int ig = 255.999 * g;
    int ib = 255.999 * b;

and prints the line "ir ig ib".

All double values arising in this program are nonnegative and lie in the
normal range of IEEE-754 binary64 (they are 0 or lie between 2 ^ (-9) and
2 ^ 9), so the double arithmetic is modelled exactly: a double value is a
rational number, and every arithmetic step rounds its exact rational result
to 53 significant bits, to nearest, ties to even.  Rationals are represented
by the fraction type F below (an unnormalised numerator/denominator pair of
naturals) so that every operation is computable by natural-number
arithmetic only.  The conversion (int)x truncates toward zero, which on
nonnegative values is natural-number division.
-/

namespace Lightshow

/-- Unnormalised nonnegative fraction num / den.  Denominators are always
positive in this development. -/
structure F where
  num : ℕ
  den : ℕ

/-- Exact product of two fractions (no rounding). -/
def F.mul (a c : F) : F := ⟨a.num * c.num, a.den * c.den⟩

/-- The fraction 2 ^ z for an integer exponent z. -/
def pow2 (z : ℤ) : F :=
  if 0 ≤ z then ⟨2 ^ z.toNat, 1⟩ else ⟨1, 2 ^ (-z).toNat⟩

/-- Fuel-driven base-2 logarithm on naturals (structural recursion so that
kernel reduction works).  With fuel at least n it returns the floor of
log2 n for n at least 1, and 0 for n = 0. -/
def log2fuel : ℕ → ℕ → ℕ
  | 0, _ => 0
  | f + 1, n => if 2 ≤ n then log2fuel f (n / 2) + 1 else 0

/-- Floor of the base-2 logarithm of a natural number (0 at 0). -/
def natLog2 (n : ℕ) : ℕ := log2fuel n n

/-- For a positive fraction a, the unique integer k with
2 ^ k less or equal a < 2 ^ (k + 1): first guess from the logarithms of
numerator and denominator, then correct by one comparison. -/
def flog2 (a : F) : ℤ :=
  let k : ℤ := (natLog2 a.num : ℤ) - (natLog2 a.den : ℤ)
  if (pow2 k).num * a.den ≤ a.num * (pow2 k).den then k else k - 1

/-- Round a nonnegative fraction to the nearest natural number, ties to
even.  The comparison of the remainder with one half is done by comparing
twice the remainder with the denominator. -/
def roundHalfEven (a : F) : ℕ :=
  let q := a.num / a.den
  let twice := 2 * (a.num % a.den)
  if twice < a.den then q
  else if a.den < twice then q + 1
  else if q % 2 = 0 then q else q + 1

/-- The fraction m * 2 ^ e. -/
def scale (m : ℕ) (e : ℤ) : F :=
  if 0 ≤ e then ⟨m * 2 ^ e.toNat, 1⟩ else ⟨m, 2 ^ (-e).toNat⟩

/-- IEEE-754 binary64 rounding (round to nearest, ties to even) of a
nonnegative rational in the normal range: the significand is rounded to 53
bits, i.e. the value is rounded to the nearest multiple of 2 ^ e where
e = flog2 a - 52. -/
def fl (a : F) : F :=
  if a.num = 0 then ⟨0, 1⟩
  else
    let e : ℤ := flog2 a - 52
    scale (roundHalfEven (F.mul a (pow2 (-e)))) e

/-- int image_width = 256 (src/main.c line 4). -/
def image_width : ℕ := 256

/-- int image_height = 256 (src/main.c line 5). -/
def image_height : ℕ := 256

/-- The double literal 255.999 of src/main.c lines 17-19: the decimal is
rounded by the compiler to the nearest binary64 value. -/
def lit255999 : F := fl ⟨255999, 1000⟩

/-- double r = (double) i / (image_width - 1): the operands are exact in
binary64, the quotient is rounded once (src/main.c line 13). -/
def r (i : ℕ) : F := fl ⟨i, image_width - 1⟩

/-- double g = (double) j / (image_height - 1) (src/main.c line 14). -/
def g (j : ℕ) : F := fl ⟨j, image_height - 1⟩

/-- double b = 0 (src/main.c line 15). -/
def b : F := ⟨0, 1⟩

/-- C conversion of a nonnegative double to int: truncation toward zero,
i.e. floor, i.e. natural division of numerator by denominator. -/
def truncF (a : F) : ℕ := a.num / a.den

/-- int ir = 255.999 * r: one rounded binary64 multiplication, then the
conversion to int (src/main.c line 17). -/
def ir (i : ℕ) : ℕ := truncF (fl (F.mul lit255999 (r i)))

/-- int ig = 255.999 * g (src/main.c line 18). -/
def ig (j : ℕ) : ℕ := truncF (fl (F.mul lit255999 (g j)))

/-- int ib = 255.999 * b (src/main.c line 19). -/
def ib : ℕ := truncF (fl (F.mul lit255999 b))

/-- The three integers printed for the pixel at row j, column i
(printf arguments of src/main.c line 21). -/
def pixelTriple (j i : ℕ) : ℕ × ℕ × ℕ := (ir i, ig j, ib)

/-- The line printed for the pixel at row j, column i:
printf("%d %d %d\n", ir, ig, ib) (src/main.c line 21). -/
def pixelLine (j i : ℕ) : String :=
  toString (ir i) ++ " " ++ toString (ig j) ++ " " ++ toString ib

/-- All pixel lines in the order of the nested loops of src/main.c
lines 11-23: j is the outer loop, i the inner loop. -/
def pixelLines : List String :=
  (List.range image_height).flatMap fun j =>
    (List.range image_width).map fun i => pixelLine j i

/-- The complete standard output of the program, as its list of lines:
the three header lines of src/main.c lines 7-9 followed by the pixel
lines. -/
def output : List String :=
  ["P3", toString image_width ++ " " ++ toString image_height, "255"] ++ pixelLines

/-- Modelled from the spec: the channel ratio of the spec, the coordinate k
divided by n = W - 1 (resp. H - 1), as an exact rational. -/
def spec_channel (k n : ℕ) : ℚ := (k : ℚ) / (n : ℚ)

/-- Modelled from the spec: intensity = floor(channel_ratio * 255.999),
with exact rational arithmetic; 255.999 is the rational 255999 / 1000. -/
def spec_intensity (q : ℚ) : ℤ := ⌊q * ((255999 : ℚ) / 1000)⌋

/-! Helper lemmas. -/

set_option maxRecDepth 100000 in
set_option maxHeartbeats 4000000 in
/-- The red channel computed by the modelled double arithmetic is exactly
the column index, for every column of the image. -/
theorem ir_fin : ∀ k : Fin 256, ir k.val = k.val := by decide

theorem ir_id (i : ℕ) (h : i < 256) : ir i = i := ir_fin ⟨i, h⟩

theorem ig_eq_ir (k : ℕ) : ig k = ir k := rfl

theorem ig_id (j : ℕ) (h : j < 256) : ig j = j := by
  rw [ig_eq_ir]
  exact ir_id j h

set_option maxRecDepth 8000 in
theorem ib_zero : ib = 0 := by decide

theorem spec_intensity_id (k : ℕ) (h : k < 256) :
    spec_intensity (spec_channel k 255) = (k : ℤ) := by
  unfold spec_intensity spec_channel
  have hk : (k : ℚ) ≤ 255 := by exact_mod_cast Nat.lt_succ_iff.mp h
  have hk0 : (0 : ℚ) ≤ (k : ℚ) := Nat.cast_nonneg k
  rw [Int.floor_eq_iff, div_mul_div_comm]
  push_cast
  constructor
  · rw [le_div_iff₀ (by norm_num : (0 : ℚ) < 255 * 1000)]
    linarith
  · rw [div_lt_iff₀ (by norm_num : (0 : ℚ) < 255 * 1000)]
    linarith

theorem spec_intensity_zero : spec_intensity 0 = 0 := by
  unfold spec_intensity
  norm_num

theorem pixelLine_eq (j i : ℕ) (hj : j < 256) (hi : i < 256) :
    pixelLine j i = toString i ++ " " ++ toString j ++ " " ++ toString (0 : ℕ) := by
  unfold pixelLine
  rw [ir_id i hi, ig_id j hj, ib_zero]

theorem flatMapRange_length {α : Type} (W : ℕ) (f : ℕ → ℕ → α) :
    ∀ H : ℕ,
      (((List.range H).flatMap fun y => (List.range W).map fun x => f y x)).length =
        H * W := by
  intro H
  induction H with
  | zero => simp
  | succ n ih =>
    rw [List.range_succ, List.flatMap_append, List.length_append, ih]
    simp [Nat.succ_mul]

theorem flatMapRange_getElem {α : Type} (W : ℕ) (f : ℕ → ℕ → α) :
    ∀ (H j i : ℕ), j < H → i < W →
      (((List.range H).flatMap fun y => (List.range W).map fun x => f y x))[j * W + i]? =
        some (f j i) := by
  intro H
  induction H with
  | zero => exact fun j i hj _ => absurd hj (Nat.not_lt_zero j)
  | succ n ih =>
    intro j i hj hi
    rw [List.range_succ, List.flatMap_append]
    rcases Nat.lt_or_ge j n with h | h
    · have hlen : j * W + i <
          (((List.range n).flatMap fun y => (List.range W).map fun x => f y x)).length := by
        rw [flatMapRange_length W f n]
        calc j * W + i < (j + 1) * W := by rw [Nat.succ_mul]; omega
          _ ≤ n * W := Nat.mul_le_mul_right W h
      rw [List.getElem?_append, if_pos hlen]
      exact ih j i h hi
    · have hj2 : j = n := by omega
      rw [hj2]
      have hlen : (((List.range n).flatMap fun y =>
          (List.range W).map fun x => f y x)).length ≤ n * W + i := by
        rw [flatMapRange_length W f n]
        exact Nat.le_add_right _ _
      rw [List.getElem?_append_right hlen, flatMapRange_length W f n,
        Nat.add_sub_cancel_left]
      simp [List.flatMap_cons, List.flatMap_nil, List.getElem?_map, List.getElem?_range hi]

theorem pixelLines_getElem (j i : ℕ) (hj : j < 256) (hi : i < 256) :
    pixelLines[j * 256 + i]? = some (pixelLine j i) :=
  flatMapRange_getElem 256 pixelLine 256 j i hj hi

theorem pixelLines_length : pixelLines.length = 65536 :=
  flatMapRange_length 256 pixelLine 256

theorem cons3_getElem {α : Type} (a c d : α) (l : List α) (m : ℕ) :
    (a :: c :: d :: l)[m + 3]? = l[m]? := by
  rw [(by omega : m + 3 = (m + 2) + 1), List.getElem?_cons_succ,
      (by omega : m + 2 = (m + 1) + 1), List.getElem?_cons_succ,
      List.getElem?_cons_succ]

/-! The claims. -/

/-- Claim C1: for every row j and column i in 0..255, the three integers
of the emitted pixel line are floor(r * 255.999), floor(g * 255.999) and
floor(b * 255.999), where r = i / (W - 1), g = j / (H - 1), b = 0.0 and
W = H = 256, the floors taken of the exact rational values as the spec
writes them. -/
theorem pixel_integers_match_spec_formula (j i : Fin 256) :
    (ir i.val : ℤ) = spec_intensity (spec_channel i.val (image_width - 1)) ∧
    (ig j.val : ℤ) = spec_intensity (spec_channel j.val (image_height - 1)) ∧
    (ib : ℤ) = spec_intensity 0 := by
  refine ⟨?_, ?_, ?_⟩
  · rw [ir_id i.val i.isLt, show image_width - 1 = 255 from rfl,
      spec_intensity_id i.val i.isLt]
  · rw [ig_id j.val j.isLt, show image_height - 1 = 255 from rfl,
      spec_intensity_id j.val j.isLt]
  · rw [ib_zero, spec_intensity_zero]
    simp

/-- Claim C2: the complete output is exactly 3 header lines followed by
exactly 65536 pixel lines, each pixel line being three space-separated
integers (each at most 255) and nothing else. -/
theorem output_line_structure :
    output.length = 3 + 65536 ∧ pixelLines.length = 65536 ∧
    ∀ k : Fin 65536, ∃ x y z : ℕ, x ≤ 255 ∧ y ≤ 255 ∧ z ≤ 255 ∧
      pixelLines[k.val]? = some (toString x ++ " " ++ toString y ++ " " ++ toString z) := by
  refine ⟨?_, pixelLines_length, ?_⟩
  · show (_ ++ pixelLines).length = 3 + 65536
    rw [List.length_append, pixelLines_length]
    rfl
  · intro k
    have hk : k.val < 65536 := k.isLt
    have hdiv : k.val / 256 < 256 := by omega
    have hmod : k.val % 256 < 256 := by omega
    refine ⟨k.val % 256, k.val / 256, 0, by omega, by omega, by omega, ?_⟩
    have hline := pixelLines_getElem (k.val / 256) (k.val % 256) hdiv hmod
    have hidx : k.val / 256 * 256 + k.val % 256 = k.val := by omega
    rw [hidx] at hline
    rw [pixelLine_eq (k.val / 256) (k.val % 256) hdiv hmod] at hline
    exact hline

/-- Claim C3: the first output line is exactly P3, the second is exactly
256 256, and the third is exactly 255. -/
theorem header_lines_exact :
    output[0]? = some "P3" ∧ output[1]? = some "256 256" ∧ output[2]? = some "255" := by
  refine ⟨?_, ?_, ?_⟩
  · show (("P3" : String) :: (toString image_width ++ " " ++ toString image_height) ::
        ("255" : String) :: pixelLines)[0]? = some "P3"
    exact List.getElem?_cons_zero
  · show (("P3" : String) :: (toString image_width ++ " " ++ toString image_height) ::
        ("255" : String) :: pixelLines)[1]? = some "256 256"
    have h1 : ((toString image_width ++ " " ++ toString image_height) ::
        ("255" : String) :: pixelLines)[0]? = some "256 256" := by
      rw [List.getElem?_cons_zero]
      rfl
    exact List.getElem?_cons_succ.trans h1
  · show (("P3" : String) :: (toString image_width ++ " " ++ toString image_height) ::
        ("255" : String) :: pixelLines)[2]? = some "255"
    exact List.getElem?_cons_succ.trans (List.getElem?_cons_succ.trans List.getElem?_cons_zero)

/-- Claim C4: pixel lines are emitted in row-major order from the top-left
pixel: the line for the pixel at row j, column i is the output line of
zero-based index 3 + j * 256 + i, i.e. the (3 + j * 256 + i + 1)-th line,
for every j and i in 0..255. -/
theorem pixel_lines_row_major (j i : Fin 256) :
    output[3 + (j.val * 256 + i.val)]? = some (pixelLine j.val i.val) := by
  rw [Nat.add_comm 3 (j.val * 256 + i.val)]
  show ("P3" :: _ :: "255" :: pixelLines)[(j.val * 256 + i.val) + 3]? = _
  rw [cons3_getElem]
  exact pixelLines_getElem j.val i.val j.isLt i.isLt

set_option maxRecDepth 8000 in
/-- Claim C5: the pixel line for row 0, column 0 is 0 0 0; for row 0,
column 255 it is 255 0 0; for row 255, column 0 it is 0 255 0. -/
theorem corner_pixel_lines :
    pixelLine 0 0 = "0 0 0" ∧ pixelLine 0 255 = "255 0 0" ∧
    pixelLine 255 0 = "0 255 0" := by
  refine ⟨?_, ?_, ?_⟩ <;> decide

set_option maxRecDepth 8000 in
/-- Claim C6: the pixel line for row 128, column 128 is 128 128 0, and
floor((128 / 255) * 255.999) = 128 as computed by the spec formula for
both the red and the green channel. -/
theorem center_pixel_line :
    pixelLine 128 128 = "128 128 0" ∧ spec_intensity (spec_channel 128 255) = 128 := by
  constructor
  · decide
  · exact spec_intensity_id 128 (by norm_num)

/-- Claim C7: for every row j and column i in 0..255, the third integer on
the pixel line, the blue channel, is 0. -/
theorem blue_channel_always_zero (j i : Fin 256) :
    (pixelTriple j.val i.val).2.2 = 0 :=
  ib_zero

/-- Claim C8: for every fixed row j the red channel value is
non-decreasing as the column grows, and for every fixed column i the green
channel value is non-decreasing as the row grows. -/
theorem gradient_monotone (j i1 i2 : Fin 256) (hi : i1 ≤ i2)
    (i j1 j2 : Fin 256) (hj : j1 ≤ j2) :
    (pixelTriple j.val i1.val).1 ≤ (pixelTriple j.val i2.val).1 ∧
    (pixelTriple j1.val i.val).2.1 ≤ (pixelTriple j2.val i.val).2.1 := by
  constructor
  · show ir i1.val ≤ ir i2.val
    rw [ir_id i1.val i1.isLt, ir_id i2.val i2.isLt]
    exact hi
  · show ig j1.val ≤ ig j2.val
    rw [ig_id j1.val j1.isLt, ig_id j2.val j2.isLt]
    exact hj

/-- Witness for claim C8 at concrete pixels: the monotonicity theorem
applied to columns 1 and 2 of row 0 and to rows 1 and 2 of column 5. -/
theorem gradient_monotone_check :
    (pixelTriple 0 1).1 ≤ (pixelTriple 0 2).1 ∧
    (pixelTriple 1 5).2.1 ≤ (pixelTriple 2 5).2.1 :=
  gradient_monotone 0 1 2 (by decide) 5 1 2 (by decide)

/-- Claim C9: every integer appearing on any pixel line lies in the range
0 to 255 inclusive; in particular no channel value ever reaches 256.  The
channel values are naturals in this model, so the lower bound 0 holds by
type and the upper bounds are proved. -/
theorem channel_values_in_range (j i : Fin 256) :
    (pixelTriple j.val i.val).1 ≤ 255 ∧ (pixelTriple j.val i.val).2.1 ≤ 255 ∧
    (pixelTriple j.val i.val).2.2 ≤ 255 := by
  have h1 : (pixelTriple j.val i.val).1 = i.val := ir_id i.val i.isLt
  have h2 : (pixelTriple j.val i.val).2.1 = j.val := ig_id j.val j.isLt
  have h3 : (pixelTriple j.val i.val).2.2 = 0 := ib_zero
  have hi := i.isLt
  have hj := j.isLt
  omega

/-- Claim C10: for every row j and column i in 0..255 the emitted red
value equals i exactly and the emitted green value equals j exactly, so
the pixel line at (j, i) is exactly i j 0: the gradient is the identity
map from coordinate to channel intensity. -/
theorem gradient_identity_map (j i : Fin 256) :
    pixelTriple j.val i.val = (i.val, j.val, 0) ∧
    pixelLine j.val i.val = toString i.val ++ " " ++ toString j.val ++ " " ++ "0" := by
  constructor
  · unfold pixelTriple
    rw [ir_id i.val i.isLt, ig_id j.val j.isLt, ib_zero]
  · rw [pixelLine_eq j.val i.val j.isLt i.isLt]
    rfl

end Lightshow
